import Mathlib

/-
Shallow embedding of the bolt key/value store core (node.go, bucket.go,
db.go, cursor.go) and proofs about its B+tree node algorithms, split
policy, page round-trip, bucket validation, sequence counter, meta
selection, mmap growth policy and cursor seek.

Byte strings are modelled as `List Nat` (one Nat per byte); Go machine
integers are modelled as `Nat`, with explicit truncation (`% 2 ^ 16`)
where the source narrows a value (the `uint16` page count).
-/

set_option maxRecDepth 10000

namespace Bolt

/-- bytesCompare mirrors Go bytes.Compare: lexicographic comparison of two
byte slices, with the shorter slice sorting first when one is a prefix of
the other. -/
def bytesCompare : List Nat → List Nat → Ordering
  | [], [] => .eq
  | [], _ :: _ => .lt
  | _ :: _, [] => .gt
  | a :: as, b :: bs =>
    if a < b then .lt
    else if b < a then .gt
    else bytesCompare as bs

theorem bytesCompare_eq_iff : ∀ {a b : List Nat}, bytesCompare a b = .eq ↔ a = b := by
  intro a
  induction a with
  | nil => intro b; cases b <;> simp [bytesCompare]
  | cons x as ih =>
    intro b
    cases b with
    | nil => simp [bytesCompare]
    | cons y bs =>
      by_cases hxy : x < y
      · simp [bytesCompare, hxy]
        omega
      · by_cases hyx : y < x
        · simp [bytesCompare, hxy, hyx]
          omega
        · have hxyeq : x = y := by omega
          simp [bytesCompare, hxy, hyx, hxyeq, ih]

theorem bytesCompare_self (a : List Nat) : bytesCompare a a = .eq :=
  bytesCompare_eq_iff.mpr rfl

theorem bytesCompare_lt_trans : ∀ {a b c : List Nat},
    bytesCompare a b = .lt → bytesCompare b c = .lt → bytesCompare a c = .lt := by
  intro a
  induction a with
  | nil =>
    intro b c hab hbc
    cases b with
    | nil => exact hbc
    | cons y bs =>
      cases c with
      | nil => simp [bytesCompare] at hbc
      | cons z cs => simp [bytesCompare]
  | cons x as ih =>
    intro b c hab hbc
    cases b with
    | nil => simp [bytesCompare] at hab
    | cons y bs =>
      cases c with
      | nil => simp [bytesCompare] at hbc
      | cons z cs =>
        simp only [bytesCompare] at hab hbc ⊢
        by_cases hyz : y < z
        · by_cases hxy : x < y
          · have hxz : x < z := by omega
            simp [hxz]
          · by_cases hyx : y < x
            · simp [hxy, hyx] at hab
            · have hxz : x < z := by omega
              simp [hxz]
        · by_cases hzy : z < y
          · simp [hyz, hzy] at hbc
          · have hyzeq : y = z := by omega
            by_cases hxy : x < y
            · have hxz : x < z := by omega
              simp [hxz]
            · by_cases hyx : y < x
              · simp [hxy, hyx] at hab
              · have hxz : ¬ x < z := by omega
                have hzx : ¬ z < x := by omega
                simp only [hxz, hzx, if_false]
                simp only [hxy, hyx, if_false] at hab
                simp only [hyz, hzy, if_false] at hbc
                exact ih hab hbc

/-- Ground evaluations of Ordering comparisons, used by simp. -/
theorem bne_lt_lt_eval : (Ordering.lt != Ordering.lt) = false := rfl

theorem bne_eq_lt_eval : (Ordering.eq != Ordering.lt) = true := rfl

theorem bne_gt_lt_eval : (Ordering.gt != Ordering.lt) = true := rfl

theorem bne_lt_gt_eval : (Ordering.lt != Ordering.gt) = true := rfl

theorem bne_eq_gt_eval : (Ordering.eq != Ordering.gt) = true := rfl

theorem bne_gt_gt_eval : (Ordering.gt != Ordering.gt) = false := rfl

theorem beq_lt_lt_eval : (Ordering.lt == Ordering.lt) = true := rfl

theorem beq_eq_lt_eval : (Ordering.eq == Ordering.lt) = false := rfl

theorem beq_gt_lt_eval : (Ordering.gt == Ordering.lt) = false := rfl

theorem beq_lt_eq_eval : (Ordering.lt == Ordering.eq) = false := rfl

theorem beq_eq_eq_eval : (Ordering.eq == Ordering.eq) = true := rfl

theorem beq_gt_eq_eval : (Ordering.gt == Ordering.eq) = false := rfl

attribute [simp] bne_lt_lt_eval bne_eq_lt_eval bne_gt_lt_eval bne_lt_gt_eval
attribute [simp] bne_eq_gt_eval bne_gt_gt_eval beq_lt_lt_eval beq_eq_lt_eval
attribute [simp] beq_gt_lt_eval beq_lt_eq_eval beq_eq_eq_eval beq_gt_eq_eval

/-- A comparison is `gt` exactly when it is neither `lt` nor `eq`. -/
theorem ordering_gt_of_not_lt_not_eq {o : Ordering} (h1 : o ≠ .lt) (h2 : o ≠ .eq) :
    o = .gt := by
  cases o <;> simp_all

/-- Modelled from the spec: the page header `{id, flags, count (u16), overflow (u32)}`
occupies 16 bytes; the constant `pageHeaderSize` itself is declared in the page
codec, which is not part of the available source. -/
def pageHeaderSize : Nat := 16

/-- Modelled from the spec: a leaf element `{flags (u32), pos (u32), ksize (u32),
vsize (u32)}` is 16 bytes (also asserted by the source comment in TestNodeReadLeafPage). -/
def leafPageElementSize : Nat := 16

/-- Modelled from the spec: a branch element `{pos (u32), ksize (u32), pgid (u64)}`
is 16 bytes. -/
def branchPageElementSize : Nat := 16

/-- Modelled from the spec: the minimum number of keys per page; the spec's split
scenarios and `minKeys = 2` for branches fix it at 2 (the source page codec, which
declares it, is not available; src/page.go carries the same value as minPageKeys). -/
def minKeysPerPage : Nat := 2

/-- Page flag for leaf pages (value 0x02, as in src/page.go p_leaf). -/
def leafPageFlag : Nat := 0x02

/-- Page flag for branch pages (value 0x01, as in src/page.go p_branch). -/
def branchPageFlag : Nat := 0x01

/-- maxPageSize from src/page.go. -/
def maxPageSize : Nat := 0x8000

/-- inode from node.go: an internal element of an in-memory node. -/
structure Inode where
  flags : Nat
  pgid : Nat
  key : List Nat
  value : List Nat
  deriving DecidableEq, Repr, Inhabited

/-- node from node.go, restricted to the fields the node algorithms read:
its leaf/branch kind and its ordered inode sequence. -/
structure Node where
  isLeaf : Bool
  inodes : List Inode
  deriving DecidableEq, Repr, Inhabited

namespace Node

/-- node.pageElementSize: element size by node kind. -/
def pageElementSize (n : Node) : Nat :=
  if n.isLeaf then leafPageElementSize else branchPageElementSize

/-- node.size: serialized size, header plus per-inode element and payload bytes. -/
def size (n : Node) : Nat :=
  pageHeaderSize + (n.inodes.map fun it => n.pageElementSize + it.key.length + it.value.length).sum

/-- The sort.Search index used by node.put and node.del: the first position whose
key compares not-less-than the target (list length when none does). sort.Search
binary-searches, which agrees with the first such position on the sorted inode
sequences the callers maintain. -/
def putIndex (ins : List Inode) (oldKey : List Nat) : Nat :=
  ins.findIdx fun it => bytesCompare it.key oldKey != Ordering.lt

/-- node.put: find the insertion index for oldKey; overwrite the slot when the key
at that index equals oldKey, otherwise make room at the index; then store
flags/key/value/pgid into the slot. -/
def put (n : Node) (oldKey newKey value : List Nat) (pgid flags : Nat) : Node :=
  if (match n.inodes.get? (putIndex n.inodes oldKey) with
      | some it => it.key == oldKey
      | none => false) = true
  then { n with inodes := n.inodes.set (putIndex n.inodes oldKey)
                  ⟨flags, pgid, newKey, value⟩ }
  else { n with inodes := n.inodes.insertIdx (putIndex n.inodes oldKey)
                  ⟨flags, pgid, newKey, value⟩ }

/-- The loop of node.split: walk the inodes with index `i`, the running byte total
`size`, the group being filled `current` and the groups already cut `done`; cut
exactly under the source's three conditions, resetting the running total to the
header size. -/
def splitLoop (elementSize total threshold : Nat) :
    List Inode → Nat → List (List Inode) → List Inode → Nat → List (List Inode)
  | [], _, done, current, _ => done ++ [current]
  | it :: rest, i, done, current, size =>
    let elemSize := elementSize + it.key.length + it.value.length
    if minKeysPerPage ≤ current.length ∧ i < total - minKeysPerPage
        ∧ threshold < size + elemSize then
      splitLoop elementSize total threshold rest (i + 1) (done ++ [current]) [it]
        (pageHeaderSize + elemSize)
    else
      splitLoop elementSize total threshold rest (i + 1) done (current ++ [it])
        (size + elemSize)

/-- node.split: return the node unchanged when it has at most 2*minKeysPerPage
inodes or its data fits the page; otherwise group the inodes at a 50% fill
threshold. The first returned node is the receiver (keeping its kind), every
later node is created with the same kind. -/
def split (n : Node) (pageSize : Nat) : List Node :=
  if n.inodes.length ≤ minKeysPerPage * 2 ∨ n.size < pageSize then [n]
  else
    (splitLoop n.pageElementSize n.inodes.length (pageSize / 2) n.inodes 0 [] []
        pageHeaderSize).map
      fun g => { isLeaf := n.isLeaf, inodes := g }

end Node

/-- The split walk exactly as the spec words it (for comparison with the source's
`Node.split`): accumulate `running = headerSize + Σ elemBytes` over the inodes in
order and cut at position `i` when the current group has at least minKeysPerPage
inodes, `i ≤ totalInodes − minKeysPerPage`, and `running` plus the next element's
bytes exceeds the threshold; after a cut the running total restarts at the header
size. -/
def splitWalkClaim (elementSize total threshold : Nat) :
    List Inode → Nat → Nat → List Inode → List (List Inode)
  | [], _, _, group => [group]
  | it :: rest, i, running, group =>
    let next := elementSize + it.key.length + it.value.length
    if minKeysPerPage ≤ group.length ∧ i ≤ total - minKeysPerPage
        ∧ threshold < running + next then
      group :: splitWalkClaim elementSize total threshold rest (i + 1)
        (pageHeaderSize + next) [it]
    else
      splitWalkClaim elementSize total threshold rest (i + 1) (running + next)
        (group ++ [it])

/-- The split function exactly as the spec words it: nodes with size < pageSize or
with at most 2 × minKeysPerPage inodes are not split; otherwise the walk groups
the inodes at threshold pageSize / 2. -/
def splitSpecClaim (n : Node) (pageSize : Nat) : List Node :=
  if n.size < pageSize ∨ n.inodes.length ≤ 2 * minKeysPerPage then [n]
  else
    (splitWalkClaim n.pageElementSize n.inodes.length (pageSize / 2) n.inodes 0
        pageHeaderSize []).map
      fun g => { isLeaf := n.isLeaf, inodes := g }

/-- The split walk as the spec words it but with the cut bound amended to
`i < totalInodes − minKeysPerPage`, which is what the source checks. -/
def splitWalkAmended (elementSize total threshold : Nat) :
    List Inode → Nat → Nat → List Inode → List (List Inode)
  | [], _, _, group => [group]
  | it :: rest, i, running, group =>
    let next := elementSize + it.key.length + it.value.length
    if minKeysPerPage ≤ group.length ∧ i < total - minKeysPerPage
        ∧ threshold < running + next then
      group :: splitWalkAmended elementSize total threshold rest (i + 1)
        (pageHeaderSize + next) [it]
    else
      splitWalkAmended elementSize total threshold rest (i + 1) (running + next)
        (group ++ [it])

/-- The amended split algorithm: as `splitSpecClaim`, with the cut bound
`i < totalInodes − minKeysPerPage`. -/
def splitSpecAmended (n : Node) (pageSize : Nat) : List Node :=
  if n.size < pageSize ∨ n.inodes.length ≤ 2 * minKeysPerPage then [n]
  else
    (splitWalkAmended n.pageElementSize n.inodes.length (pageSize / 2) n.inodes 0
        pageHeaderSize []).map
      fun g => { isLeaf := n.isLeaf, inodes := g }

/-- The accumulator of the source's split loop restated against the amended walk. -/
theorem splitLoop_eq_walkAmended (elementSize total threshold : Nat) :
    ∀ (rest : List Inode) (i : Nat) (done : List (List Inode)) (current : List Inode)
      (size : Nat),
      Node.splitLoop elementSize total threshold rest i done current size =
        done ++ splitWalkAmended elementSize total threshold rest i size current := by
  intro rest
  induction rest with
  | nil => intro i done current size; simp [Node.splitLoop, splitWalkAmended]
  | cons it rest ih =>
    intro i done current size
    by_cases h : minKeysPerPage ≤ current.length ∧ i < total - minKeysPerPage
        ∧ threshold < size + (elementSize + it.key.length + it.value.length)
    · simp only [Node.splitLoop, splitWalkAmended, if_pos h]
      rw [ih]
      simp
    · simp only [Node.splitLoop, splitWalkAmended, if_neg h]
      rw [ih]

/-- The join of the groups produced by the source's split loop is the groups cut
so far, then the group being filled, then the unvisited inodes. -/
theorem splitLoop_join (elementSize total threshold : Nat) :
    ∀ (rest : List Inode) (i : Nat) (done : List (List Inode)) (current : List Inode)
      (size : Nat),
      (Node.splitLoop elementSize total threshold rest i done current size).flatten =
        done.flatten ++ current ++ rest := by
  intro rest
  induction rest with
  | nil => intro i done current size; simp [Node.splitLoop]
  | cons it rest ih =>
    intro i done current size
    by_cases h : minKeysPerPage ≤ current.length ∧ i < total - minKeysPerPage
        ∧ threshold < size + (elementSize + it.key.length + it.value.length)
    · simp only [Node.splitLoop, if_pos h]
      rw [ih]
      simp
    · simp only [Node.splitLoop, if_neg h]
      rw [ih]
      simp

/-- Key `0000000d` for a digit d: seven ASCII zeros then the digit. -/
def eightByteKey (d : Nat) : List Nat := [48, 48, 48, 48, 48, 48, 48, 48 + d]

/-- The 16-byte value `0123456701234567` of the split scenario. -/
def sixteenByteValue : List Nat :=
  [48, 49, 50, 51, 52, 53, 54, 55, 48, 49, 50, 51, 52, 53, 54, 55]

/-- A node holding six 8-byte-key/16-byte-value inodes: the split of this node
separates the source's cut bound from the spec's. -/
def sixInodeNode : Node :=
  { isLeaf := false
    inodes := [⟨0, 0, eightByteKey 1, sixteenByteValue⟩,
               ⟨0, 0, eightByteKey 2, sixteenByteValue⟩,
               ⟨0, 0, eightByteKey 3, sixteenByteValue⟩,
               ⟨0, 0, eightByteKey 4, sixteenByteValue⟩,
               ⟨0, 0, eightByteKey 5, sixteenByteValue⟩,
               ⟨0, 0, eightByteKey 6, sixteenByteValue⟩] }

/-- C1: a node holding exactly the five inodes with the 8-byte keys 00000001
through 00000005 and 16-byte values splits at pageSize 100 into exactly two
nodes, the first with 2 inodes, the second with 3, in the original key order. -/
theorem split_five_inodes_two_three (b : Bool) (f1 f2 f3 f4 f5 p1 p2 p3 p4 p5 : Nat)
    (v1 v2 v3 v4 v5 : List Nat)
    (h1 : v1.length = 16) (h2 : v2.length = 16) (h3 : v3.length = 16)
    (h4 : v4.length = 16) (h5 : v5.length = 16) :
    Node.split ⟨b, [⟨f1, p1, eightByteKey 1, v1⟩, ⟨f2, p2, eightByteKey 2, v2⟩,
        ⟨f3, p3, eightByteKey 3, v3⟩, ⟨f4, p4, eightByteKey 4, v4⟩,
        ⟨f5, p5, eightByteKey 5, v5⟩]⟩ 100 =
      [⟨b, [⟨f1, p1, eightByteKey 1, v1⟩, ⟨f2, p2, eightByteKey 2, v2⟩]⟩,
       ⟨b, [⟨f3, p3, eightByteKey 3, v3⟩, ⟨f4, p4, eightByteKey 4, v4⟩,
            ⟨f5, p5, eightByteKey 5, v5⟩]⟩] := by
  cases b <;>
    simp [Node.split, Node.size, Node.pageElementSize, Node.splitLoop,
      pageHeaderSize, leafPageElementSize, branchPageElementSize, minKeysPerPage,
      eightByteKey, h1, h2, h3, h4, h5]

/-- C1 witness: the scenario instance with the concrete 16-byte value
0123456701234567 on a leaf node. -/
theorem split_five_inodes_two_three_witness :
    sixteenByteValue.length = 16 ∧
    Node.split ⟨true, [⟨0, 0, eightByteKey 1, sixteenByteValue⟩,
        ⟨0, 0, eightByteKey 2, sixteenByteValue⟩,
        ⟨0, 0, eightByteKey 3, sixteenByteValue⟩,
        ⟨0, 0, eightByteKey 4, sixteenByteValue⟩,
        ⟨0, 0, eightByteKey 5, sixteenByteValue⟩]⟩ 100 =
      [⟨true, [⟨0, 0, eightByteKey 1, sixteenByteValue⟩,
               ⟨0, 0, eightByteKey 2, sixteenByteValue⟩]⟩,
       ⟨true, [⟨0, 0, eightByteKey 3, sixteenByteValue⟩,
               ⟨0, 0, eightByteKey 4, sixteenByteValue⟩,
               ⟨0, 0, eightByteKey 5, sixteenByteValue⟩]⟩] :=
  ⟨by decide,
   split_five_inodes_two_three true 0 0 0 0 0 0 0 0 0 0 _ _ _ _ _
     (by decide) (by decide) (by decide) (by decide) (by decide)⟩

/-- C2 counterexample: on a node of six 40-byte inodes at pageSize 100 the source
cuts only once (groups of 2 and 4 inodes) while the claimed algorithm, whose cut
bound is `i ≤ totalInodes − minKeysPerPage`, cuts twice (groups of 2, 2 and 2). -/
theorem split_claim_bound_counterexample :
    Node.split sixInodeNode 100 ≠ splitSpecClaim sixInodeNode 100 ∧
    (Node.split sixInodeNode 100).map (fun m => m.inodes.length) = [2, 4] ∧
    (splitSpecClaim sixInodeNode 100).map (fun m => m.inodes.length) = [2, 2, 2] := by
  refine ⟨by decide, by decide, by decide⟩

/-- C2 amended: node.split follows the spec's algorithm with the cut bound
amended to `i < totalInodes − minKeysPerPage`: nodes with fewer than
2 × minKeysPerPage + 1 inodes or size below pageSize are returned unchanged,
and otherwise the inodes are grouped by the running-total walk with threshold
pageSize / 2. -/
theorem split_follows_amended_algorithm (n : Node) (pageSize : Nat) :
    Node.split n pageSize = splitSpecAmended n pageSize := by
  unfold Node.split splitSpecAmended
  by_cases h : n.inodes.length ≤ minKeysPerPage * 2 ∨ n.size < pageSize
  · have h' : n.size < pageSize ∨ n.inodes.length ≤ 2 * minKeysPerPage := by
      rcases h with h | h
      · right; omega
      · left; exact h
    rw [if_pos h, if_pos h']
  · have h' : ¬(n.size < pageSize ∨ n.inodes.length ≤ 2 * minKeysPerPage) := by
      rcases not_or.mp h with ⟨ha, hb⟩
      exact not_or.mpr ⟨hb, by omega⟩
    rw [if_neg h, if_neg h', splitLoop_eq_walkAmended]
    simp

/-- C10: split conserves the data: the concatenation of the returned nodes'
inode sequences is the original inode sequence, and every returned node has the
same leaf/branch kind as the input node. -/
theorem split_conserves_inodes_and_kind (n : Node) (pageSize : Nat) :
    ((Node.split n pageSize).map Node.inodes).flatten = n.inodes ∧
      ∀ m ∈ Node.split n pageSize, m.isLeaf = n.isLeaf := by
  constructor
  · unfold Node.split
    by_cases h : n.inodes.length ≤ minKeysPerPage * 2 ∨ n.size < pageSize
    · rw [if_pos h]; simp
    · rw [if_neg h, List.map_map]
      have : (Node.inodes ∘ fun g => ({ isLeaf := n.isLeaf, inodes := g } : Node)) =
          fun g => g := rfl
      rw [this, List.map_id', splitLoop_join]
      simp
  · intro m hm
    unfold Node.split at hm
    by_cases h : n.inodes.length ≤ minKeysPerPage * 2 ∨ n.size < pageSize
    · rw [if_pos h] at hm
      simp at hm
      rw [hm]
    · rw [if_neg h] at hm
      rcases List.mem_map.mp hm with ⟨g, _, rfl⟩
      rfl

theorem bytesCompare_symm : ∀ (a b : List Nat),
    bytesCompare b a = (bytesCompare a b).swap := by
  intro a
  induction a with
  | nil => intro b; cases b <;> simp [bytesCompare, Ordering.swap]
  | cons x as ih =>
    intro b
    cases b with
    | nil => simp [bytesCompare, Ordering.swap]
    | cons y bs =>
      simp only [bytesCompare]
      by_cases hxy : x < y
      · have hyx : ¬ y < x := by omega
        simp [hxy, hyx, Ordering.swap]
      · by_cases hyx : y < x
        · simp [hxy, hyx, Ordering.swap]
        · simp [hxy, hyx, ih]

theorem bytesCompare_gt_iff_lt {a b : List Nat} :
    bytesCompare a b = .gt ↔ bytesCompare b a = .lt := by
  rw [bytesCompare_symm a b]
  cases bytesCompare a b <;> simp [Ordering.swap]

/-- Strictly ascending inode keys: the "sorted by key ascending, duplicate-free"
precondition the node algorithms maintain. -/
def InodesSorted (l : List Inode) : Prop :=
  l.Pairwise fun a b => bytesCompare a.key b.key = Ordering.lt

instance (l : List Inode) : Decidable (InodesSorted l) := by
  unfold InodesSorted
  infer_instance

/-- findIdx returns the index of the first element satisfying the predicate. -/
theorem findIdx_eq_of_first {α : Type} (p : α → Bool) (l : List α) (i : Nat)
    (hi : i < l.length) (ht : p (l.get ⟨i, hi⟩) = true)
    (hf : ∀ j (hj : j < l.length), j < i → p (l.get ⟨j, hj⟩) = false) :
    l.findIdx p = i := by
  rcases Nat.lt_trichotomy (l.findIdx p) i with hlt | heq | hgt
  · have hflt : l.findIdx p < l.length := Nat.lt_trans hlt hi
    have := @List.findIdx_getElem _ p l hflt
    have hfalse := hf (l.findIdx p) hflt hlt
    simp only [List.get_eq_getElem] at hfalse
    rw [this] at hfalse
    cases hfalse
  · exact heq
  · have := @List.not_of_lt_findIdx _ p l i hgt
    simp only [List.get_eq_getElem] at ht
    rw [ht] at this
    cases this

/-- On a sorted inode list the put index of a present key is that key's position. -/
theorem putIndex_of_mem (l : List Inode) (k : List Nat) (hs : InodesSorted l)
    (i : Nat) (hi : i < l.length) (hk : (l.get ⟨i, hi⟩).key = k) :
    Node.putIndex l k = i := by
  apply findIdx_eq_of_first _ _ i hi
  · simp only [List.get_eq_getElem] at hk
    simp only [List.get_eq_getElem, hk, bytesCompare_self]
    rfl
  · intro j hj hji
    have hrel := List.pairwise_iff_getElem.mp hs j i hj hi hji
    simp only [List.get_eq_getElem] at hk
    rw [hk] at hrel
    simp only [List.get_eq_getElem, hrel]
    rfl

/-- Inserting a fresh key at its put index preserves strict ascending order. -/
theorem insertIdx_putIndex_sorted : ∀ (l : List Inode) (e : Inode),
    InodesSorted l → (∀ it ∈ l, it.key ≠ e.key) →
    InodesSorted (l.insertIdx (Node.putIndex l e.key) e) := by
  intro l
  induction l with
  | nil => intro e _ _; simp [Node.putIndex, InodesSorted]
  | cons a l ih =>
    intro e hs habs
    have hane : a.key ≠ e.key := habs a (by simp)
    have hs' := (List.pairwise_cons.mp hs)
    cases hcmp : bytesCompare a.key e.key with
    | eq => exact absurd (bytesCompare_eq_iff.mp hcmp) hane
    | gt =>
      have hidx : Node.putIndex (a :: l) e.key = 0 := by
        simp only [Node.putIndex, List.findIdx_cons, hcmp]
        rfl
      rw [hidx]
      have hea : bytesCompare e.key a.key = Ordering.lt :=
        bytesCompare_gt_iff_lt.mp hcmp
      refine List.pairwise_cons.mpr ⟨?_, hs⟩
      intro x hx
      rcases List.mem_cons.mp hx with rfl | hxl
      · exact hea
      · exact bytesCompare_lt_trans hea (hs'.1 x hxl)
    | lt =>
      have hidx : Node.putIndex (a :: l) e.key = Node.putIndex l e.key + 1 := by
        simp only [Node.putIndex, List.findIdx_cons, hcmp]
        rfl
      rw [hidx, List.insertIdx_succ_cons]
      refine List.pairwise_cons.mpr ⟨?_, ?_⟩
      · intro x hx
        have hle : Node.putIndex l e.key ≤ l.length :=
          List.findIdx_le_length _
        rcases (List.mem_insertIdx hle).mp hx with rfl | hxl
        · exact hcmp
        · exact hs'.1 x hxl
      · exact ih e hs'.2 fun it hit => habs it (List.mem_cons_of_mem a hit)

/-- bar with value 1, as in TestNodePut. -/
def barInode : Inode := ⟨0, 0, [98, 97, 114], [49]⟩

/-- baz with value 2, as in TestNodePut. -/
def bazInode : Inode := ⟨0, 0, [98, 97, 122], [50]⟩

/-- The key foo. -/
def fooKey : List Nat := [102, 111, 111]

/-- C4: on a node sorted by key ascending, put with oldKey = newKey = k
overwrites in place when k is present (count unchanged) and otherwise inserts
the new inode at its put index, growing the count by one and keeping the list
sorted; in particular putting foo with value 0 then foo with value 3 into a node
holding bar and baz leaves one inode for foo with value 3 after bar and baz. -/
theorem put_overwrites_or_inserts_sorted (n : Node) (k v : List Nat) (pg fl : Nat)
    (hs : InodesSorted n.inodes) :
    (∀ i (h : i < n.inodes.length), (n.inodes.get ⟨i, h⟩).key = k →
        (Node.put n k k v pg fl).inodes = n.inodes.set i ⟨fl, pg, k, v⟩ ∧
          (Node.put n k k v pg fl).inodes.length = n.inodes.length) ∧
    ((∀ it ∈ n.inodes, it.key ≠ k) →
        (Node.put n k k v pg fl).inodes =
            n.inodes.insertIdx (Node.putIndex n.inodes k) ⟨fl, pg, k, v⟩ ∧
          (Node.put n k k v pg fl).inodes.length = n.inodes.length + 1 ∧
          InodesSorted (Node.put n k k v pg fl).inodes) ∧
    Node.put (Node.put ⟨true, [barInode, bazInode]⟩ fooKey fooKey [48] 0 0)
        fooKey fooKey [51] 0 0 =
      ⟨true, [barInode, bazInode, ⟨0, 0, fooKey, [51]⟩]⟩ := by
  refine ⟨?_, ?_, by decide⟩
  · intro i h hk
    have hidx := putIndex_of_mem n.inodes k hs i h hk
    have hexact : (match n.inodes.get? (Node.putIndex n.inodes k) with
        | some it => it.key == k
        | none => false) = true := by
      rw [hidx, List.get?_eq_get h]
      simpa using hk
    simp only [Node.put, hexact, if_true]
    simp [hidx]
  · intro habs
    have hexact : (match n.inodes.get? (Node.putIndex n.inodes k) with
        | some it => it.key == k
        | none => false) = false := by
      cases hget : n.inodes.get? (Node.putIndex n.inodes k) with
      | none => rfl
      | some it =>
        have : it ∈ n.inodes := List.get?_mem hget
        simpa using habs it this
    have hle : Node.putIndex n.inodes k ≤ n.inodes.length :=
      List.findIdx_le_length _
    have hput : (Node.put n k k v pg fl).inodes =
        n.inodes.insertIdx (Node.putIndex n.inodes k) ⟨fl, pg, k, v⟩ := by
      simp only [Node.put, hexact, Bool.false_eq_true, if_false]
    refine ⟨hput, ?_, ?_⟩
    · rw [hput]
      exact List.length_insertIdx _ _ hle
    · rw [InodesSorted, hput]
      exact insertIdx_putIndex_sorted n.inodes ⟨fl, pg, k, v⟩ hs
        fun it hit => habs it hit

/-- C4 witness: instance of the put behavior at the sorted node holding bar and
baz with the present key bar (overwrite case) discharged concretely. -/
theorem put_overwrites_or_inserts_sorted_witness :
    InodesSorted [barInode, bazInode] ∧
    (Node.put ⟨true, [barInode, bazInode]⟩ barInode.key barInode.key [51] 0 0).inodes =
      [barInode, bazInode].set 0 ⟨0, 0, barInode.key, [51]⟩ := by
  have h := put_overwrites_or_inserts_sorted ⟨true, [barInode, bazInode]⟩
    barInode.key [51] 0 0 (by decide)
  exact ⟨by decide, (h.1 0 (by decide) (by decide)).1⟩

/-- leafPageElement: `{flags, pos, ksize, vsize}`; `pos` is the byte distance
from the element's own position in the page data region to its key bytes. -/
structure leafPageElement where
  flags : Nat
  pos : Nat
  ksize : Nat
  vsize : Nat
  deriving DecidableEq, Repr, Inhabited

/-- branchPageElement: `{pos, ksize, pgid}`. -/
structure branchPageElement where
  pos : Nat
  ksize : Nat
  pgid : Nat
  deriving DecidableEq, Repr, Inhabited

/-- A page, with its data region split into the structured element array
(elements at byte offsets elementSize × i from the start of the region) and the
raw payload bytes that follow the array (at byte offsets ≥ elementSize × count). -/
structure Page where
  id : Nat
  flags : Nat
  count : Nat
  leafElems : List leafPageElement
  branchElems : List branchPageElement
  payload : List Nat
  deriving DecidableEq, Repr, Inhabited

/-- A zeroed page, as handed to node.write by the tests and the spill path. -/
def emptyPage : Page := ⟨0, 0, 0, [], [], []⟩

/-- The payload bytes preceding inode i: keys and values of the inodes before it,
in write order (key then value per inode). -/
def inodePrefixBytes (ins : List Inode) (i : Nat) : Nat :=
  ((ins.take i).map fun it => it.key.length + it.value.length).sum

/-- Read len bytes of the page data region starting at byte offset start, for a
page whose element size is es; offsets below es × count fall inside the element
array (kept structured here, never read back by the node codec). -/
def pageByteSlice (p : Page) (es start len : Nat) : List Nat :=
  (p.payload.drop (start - es * p.count)).take len

namespace Node

/-- node.write: set the leaf or branch flag, store the (uint16) element count,
lay out one element per inode with its pos pointing forward to its key bytes,
and pack every inode's key then value after the element array. The element
positions mirror the source's pointer arithmetic: the write cursor starts at
elementSize × len and each element's pos is the cursor minus its own offset. -/
def write (n : Node) (p : Page) : Page :=
  let len := n.inodes.length
  let es := n.pageElementSize
  let pos := fun i => es * len + inodePrefixBytes n.inodes i - es * i
  { p with
    flags := p.flags ||| (if n.isLeaf then leafPageFlag else branchPageFlag)
    count := len % 2 ^ 16
    leafElems :=
      if n.isLeaf then
        (List.range len).map fun i =>
          let it := n.inodes.getD i default
          ⟨it.flags, pos i, it.key.length, it.value.length⟩
      else p.leafElems
    branchElems :=
      if n.isLeaf then p.branchElems
      else
        (List.range len).map fun i =>
          let it := n.inodes.getD i default
          ⟨pos i, it.key.length, it.pgid⟩
    payload := (n.inodes.map fun it => it.key ++ it.value).flatten }

/-- node.read: recover the leaf flag from the page flags and rebuild count
inodes; a leaf element yields flags/key/value (pgid stays zero), a branch
element yields pgid/key (flags stay zero, value stays empty), with key bytes at
the element's offset plus pos and value bytes right after the key. -/
def read (p : Page) : Node :=
  let isLeaf : Bool := p.flags &&& leafPageFlag != 0
  let es := if isLeaf then leafPageElementSize else branchPageElementSize
  { isLeaf := isLeaf
    inodes :=
      (List.range p.count).map fun i =>
        if isLeaf then
          let e := p.leafElems.getD i default
          ⟨e.flags, 0, pageByteSlice p es (es * i + e.pos) e.ksize,
            pageByteSlice p es (es * i + e.pos + e.ksize) e.vsize⟩
        else
          let e := p.branchElems.getD i default
          ⟨0, e.pgid, pageByteSlice p es (es * i + e.pos) e.ksize, []⟩ }

end Node

theorem flatten_drop_prefixBytes (ins : List Inode) :
    ∀ i, ((ins.map fun it => it.key ++ it.value).flatten).drop (inodePrefixBytes ins i)
      = ((ins.drop i).map fun it => it.key ++ it.value).flatten := by
  induction ins with
  | nil => intro i; simp [inodePrefixBytes]
  | cons a l ih =>
    intro i
    cases i with
    | zero => simp [inodePrefixBytes]
    | succ i =>
      have hpre : inodePrefixBytes (a :: l) (i + 1)
          = (a.key ++ a.value).length + inodePrefixBytes l i := by
        simp [inodePrefixBytes, List.take_succ_cons]
      simp only [List.map_cons, List.flatten_cons, List.drop_succ_cons, hpre,
        List.drop_append]
      exact ih i

theorem payload_key_slice (ins : List Inode) (i : Nat) (hi : i < ins.length) :
    (((ins.map fun it => it.key ++ it.value).flatten).drop
        (inodePrefixBytes ins i)).take (ins.get ⟨i, hi⟩).key.length
      = (ins.get ⟨i, hi⟩).key := by
  rw [flatten_drop_prefixBytes]
  rw [List.drop_eq_getElem_cons hi]
  simp only [List.map_cons, List.flatten_cons, List.get_eq_getElem, List.append_assoc]
  exact List.take_left' rfl

theorem payload_value_slice (ins : List Inode) (i : Nat) (hi : i < ins.length) :
    (((ins.map fun it => it.key ++ it.value).flatten).drop
        (inodePrefixBytes ins i + (ins.get ⟨i, hi⟩).key.length)).take
        (ins.get ⟨i, hi⟩).value.length
      = (ins.get ⟨i, hi⟩).value := by
  rw [← List.drop_drop, flatten_drop_prefixBytes]
  rw [List.drop_eq_getElem_cons hi]
  simp only [List.map_cons, List.flatten_cons, List.get_eq_getElem, List.append_assoc]
  rw [show (ins[i].key.length) = (ins[i].key.length + 0) from rfl, List.drop_append]
  simp only [List.drop_zero]
  exact List.take_left' rfl

theorem le_sum_elemBytes (es : Nat) (l : List Inode) :
    es * l.length ≤ (l.map fun it => es + it.key.length + it.value.length).sum := by
  induction l with
  | nil => simp
  | cons a l ih =>
    simp only [List.map_cons, List.sum_cons, List.length_cons, Nat.mul_succ]
    omega

theorem write_read_id_branch (ins : List Inode)
    (hsize : Node.size ⟨false, ins⟩ ≤ maxPageSize)
    (hcompat : ∀ it ∈ ins, it.flags = 0 ∧ it.value = []) :
    Node.read (Node.write ⟨false, ins⟩ emptyPage) = ⟨false, ins⟩ := by
  have hlen : ins.length < 2 ^ 16 := by
    have h16 := le_sum_elemBytes 16 ins
    have hsz : 16 + (ins.map fun it => 16 + it.key.length + it.value.length).sum
        ≤ 32768 := by
      simpa [Node.size, Node.pageElementSize, branchPageElementSize, maxPageSize,
        pageHeaderSize] using hsize
    omega
  have hmod : ins.length % 2 ^ 16 = ins.length := Nat.mod_eq_of_lt hlen
  simp only [Node.read, Node.write, emptyPage, Node.pageElementSize, leafPageFlag,
    branchPageFlag, leafPageElementSize, branchPageElementSize, Bool.false_eq_true,
    if_false, hmod]
  norm_num
  apply List.ext_getElem
  · simp
  · intro i h1 h2
    have hi : i < ins.length := by simpa using h1
    simp only [List.getElem_map, List.getElem_range, List.getElem?_range hi,
      Option.map_some', Option.getD_some, List.getElem?_eq_getElem hi,
      pageByteSlice, hmod]
    have harith : 16 * i + (16 * ins.length + inodePrefixBytes ins i - 16 * i)
        - 16 * ins.length = inodePrefixBytes ins i := by
      have hile : 16 * i ≤ 16 * ins.length :=
        Nat.mul_le_mul_left 16 (Nat.le_of_lt hi)
      omega
    rw [harith]
    have hkey := payload_key_slice ins i hi
    simp only [List.get_eq_getElem] at hkey
    rw [hkey]
    obtain ⟨hf, hv⟩ := hcompat ins[i] (List.getElem_mem hi)
    cases h : ins[i] with
    | mk f pg k v =>
      rw [h] at hf hv
      simp at hf hv
      rw [hf, hv]

theorem write_read_id_leaf (ins : List Inode)
    (hsize : Node.size ⟨true, ins⟩ ≤ maxPageSize)
    (hcompat : ∀ it ∈ ins, it.pgid = 0) :
    Node.read (Node.write ⟨true, ins⟩ emptyPage) = ⟨true, ins⟩ := by
  have hlen : ins.length < 2 ^ 16 := by
    have h16 := le_sum_elemBytes 16 ins
    have hsz : 16 + (ins.map fun it => 16 + it.key.length + it.value.length).sum
        ≤ 32768 := by
      simpa [Node.size, Node.pageElementSize, leafPageElementSize, maxPageSize,
        pageHeaderSize] using hsize
    omega
  have hmod : ins.length % 2 ^ 16 = ins.length := Nat.mod_eq_of_lt hlen
  simp only [Node.read, Node.write, emptyPage, Node.pageElementSize, leafPageFlag,
    branchPageFlag, leafPageElementSize, branchPageElementSize, if_true, hmod]
  norm_num
  apply List.ext_getElem
  · simp
  · intro i h1 h2
    have hi : i < ins.length := by simpa using h1
    simp only [List.getElem_map, List.getElem_range, List.getElem?_range hi,
      Option.map_some', Option.getD_some, List.getElem?_eq_getElem hi,
      pageByteSlice, hmod]
    have hile : 16 * i ≤ 16 * ins.length := Nat.mul_le_mul_left 16 (Nat.le_of_lt hi)
    have harith : 16 * i + (16 * ins.length + inodePrefixBytes ins i - 16 * i)
        - 16 * ins.length = inodePrefixBytes ins i := by omega
    have harith2 : 16 * i + (16 * ins.length + inodePrefixBytes ins i - 16 * i)
        + ins[i].key.length - 16 * ins.length
        = inodePrefixBytes ins i + ins[i].key.length := by omega
    rw [harith, harith2]
    have hkey := payload_key_slice ins i hi
    have hval := payload_value_slice ins i hi
    simp only [List.get_eq_getElem] at hkey hval
    rw [hkey, hval]
    have hp := hcompat ins[i] (List.getElem_mem hi)
    cases h : ins[i] with
    | mk f pg k v =>
      rw [h] at hp
      simp at hp
      rw [hp]

/-- C3 counterexample: a leaf node whose single inode records a nonzero child
page id fits a page but does not round-trip: node.write never stores a leaf
element's pgid and node.read leaves it zero. -/
theorem write_read_roundtrip_counterexample :
    Node.size ⟨true, [⟨0, 7, [97], [98]⟩]⟩ ≤ maxPageSize ∧
    Node.read (Node.write ⟨true, [⟨0, 7, [97], [98]⟩]⟩ emptyPage)
      ≠ ⟨true, [⟨0, 7, [97], [98]⟩]⟩ ∧
    (Node.read (Node.write ⟨true, [⟨0, 7, [97], [98]⟩]⟩ emptyPage)).inodes.map
        Inode.pgid = [0] := by
  refine ⟨by decide, by decide, by decide⟩

/-- C3 amended: writing a node that fits a single page to a fresh page and
reading the page back yields an identical inode sequence and the same isLeaf
flag, provided the node carries no data its page layout has no slot for: leaf
inodes must have pgid 0, branch inodes must have flags 0 and an empty value. -/
theorem write_read_roundtrip (n : Node) (hsize : Node.size n ≤ maxPageSize)
    (hcompat : ∀ it ∈ n.inodes,
        if n.isLeaf then it.pgid = 0 else it.flags = 0 ∧ it.value = []) :
    Node.read (Node.write n emptyPage) = n := by
  obtain ⟨b, ins⟩ := n
  cases b
  · exact write_read_id_branch ins hsize (by simpa using hcompat)
  · exact write_read_id_leaf ins hsize (by simpa using hcompat)

/-- C3 witness: the round-trip at a concrete two-inode leaf node. -/
theorem write_read_roundtrip_witness :
    Node.size ⟨true, [⟨5, 0, [97], [98, 99]⟩, ⟨0, 0, [100], []⟩]⟩ ≤ maxPageSize ∧
    Node.read (Node.write ⟨true, [⟨5, 0, [97], [98, 99]⟩, ⟨0, 0, [100], []⟩]⟩
        emptyPage) = ⟨true, [⟨5, 0, [97], [98, 99]⟩, ⟨0, 0, [100], []⟩]⟩ :=
  ⟨by decide,
   write_read_roundtrip ⟨true, [⟨5, 0, [97], [98, 99]⟩, ⟨0, 0, [100], []⟩]⟩
     (by decide) (by decide)⟩

/-- minMmapSize from db.go: 4 MiB, the smallest mmap size. -/
def minMmapSize : Nat := 2 ^ 22

/-- maxMmapStep from db.go: 1 GiB, the largest remap step. -/
def maxMmapStep : Nat := 2 ^ 30

/-- DB.mmapSize from db.go: below the minimum return the minimum as is;
otherwise double below maxMmapStep or add maxMmapStep, then round the result up
to a multiple of the page size when it is not one already. -/
def mmapSize (pageSize size : Nat) : Nat :=
  if size < minMmapSize then minMmapSize
  else
    let s := if size < maxMmapStep then size * 2 else size + maxMmapStep
    if s % pageSize ≠ 0 then (s / pageSize + 1) * pageSize else s

/-- C5 counterexample: with pageSize 3 and current size 0 the result is the raw
minimum 4 MiB, which is not a multiple of the page size: the early minimum
return skips the rounding step. -/
theorem mmapSize_multiple_counterexample :
    0 < 3 ∧ mmapSize 3 0 = minMmapSize ∧ ¬ (3 ∣ mmapSize 3 0) := by
  refine ⟨by decide, by decide, by decide⟩

/-- C5 amended: mmapSize always returns at least minMmapSize; below the minimum
it returns exactly minMmapSize with no page-size rounding; at or above the
minimum the result is a multiple of pageSize and is the doubled input (below
maxMmapStep) or the input plus maxMmapStep, rounded up by less than one page. -/
theorem mmapSize_growth (pageSize size : Nat) (hp : 0 < pageSize) :
    minMmapSize ≤ mmapSize pageSize size ∧
    (size < minMmapSize → mmapSize pageSize size = minMmapSize) ∧
    (minMmapSize ≤ size →
      mmapSize pageSize size % pageSize = 0 ∧
      (size < maxMmapStep →
        2 * size ≤ mmapSize pageSize size ∧
        mmapSize pageSize size < 2 * size + pageSize) ∧
      (maxMmapStep ≤ size →
        size + maxMmapStep ≤ mmapSize pageSize size ∧
        mmapSize pageSize size < size + maxMmapStep + pageSize)) := by
  by_cases hmin : size < minMmapSize
  · unfold mmapSize
    rw [if_pos hmin]
    refine ⟨Nat.le_refl _, fun _ => rfl, fun h => absurd h (by omega)⟩
  · have hge : minMmapSize ≤ size := Nat.le_of_not_lt hmin
    have hs : mmapSize pageSize size =
        (if ((if size < maxMmapStep then size * 2 else size + maxMmapStep)
                % pageSize ≠ 0)
          then ((if size < maxMmapStep then size * 2 else size + maxMmapStep)
                  / pageSize + 1) * pageSize
          else (if size < maxMmapStep then size * 2 else size + maxMmapStep)) := by
      unfold mmapSize
      rw [if_neg hmin]
    set s := if size < maxMmapStep then size * 2 else size + maxMmapStep with hsdef
    have hslb : size ≤ s := by
      rw [hsdef]
      by_cases hstep : size < maxMmapStep
      · rw [if_pos hstep]; omega
      · rw [if_neg hstep]; omega
    have hdm := Nat.div_add_mod s pageSize
    have hmlt : s % pageSize < pageSize := Nat.mod_lt _ hp
    have hres : mmapSize pageSize size % pageSize = 0 ∧
        s ≤ mmapSize pageSize size ∧ mmapSize pageSize size < s + pageSize := by
      rw [hs]
      by_cases hz : s % pageSize ≠ 0
      · rw [if_pos hz]
        refine ⟨Nat.mul_mod_left _ _, ?_, ?_⟩ <;>
          · have : (s / pageSize + 1) * pageSize = pageSize * (s / pageSize) + pageSize := by
              ring
            omega
      · rw [if_neg hz]
        push_neg at hz
        exact ⟨hz, Nat.le_refl _, by omega⟩
    refine ⟨by omega, fun h => absurd h (by omega), fun _ => ⟨hres.1, ?_, ?_⟩⟩
    · intro hstep
      have : s = size * 2 := by rw [hsdef, if_pos hstep]
      omega
    · intro hstep
      have : s = size + maxMmapStep := by
        rw [hsdef, if_neg (Nat.not_lt.mpr hstep)]
      omega

/-- C5 witness: the growth policy at pageSize 4096 and a 5 MiB size. -/
theorem mmapSize_growth_witness :
    0 < 4096 ∧ (2 ^ 22 ≤ 5242880 ∧ 5242880 < 2 ^ 30) ∧
    mmapSize 4096 5242880 % 4096 = 0 ∧ 2 * 5242880 ≤ mmapSize 4096 5242880 ∧
    mmapSize 4096 5242880 < 2 * 5242880 + 4096 := by
  have h := mmapSize_growth 4096 5242880 (by decide)
  have h2 := (h.2.2 (by decide))
  exact ⟨by decide, ⟨by decide, by decide⟩, h2.1, h2.2.1 (by decide)⟩

/-- The errors Bucket.Put can return, in the order bucket.go checks them. -/
inductive PutErr where
  | txClosed
  | bucketNotWritable
  | keyRequired
  | keyTooLarge
  | valueTooLarge
  deriving DecidableEq, Repr

/-- Modelled from the spec: MaxKeySize = 32768; the constant is declared outside
the available source. -/
def MaxKeySize : Nat := 32768

/-- Modelled from the spec: MaxValueSize is about 2^31 − 1; the constant is
declared outside the available source. -/
def MaxValueSize : Nat := 2 ^ 31 - 1

/-- Bucket.Put from bucket.go, over a bucket whose tree is the single leaf node
the cursor seeks to: refuse in order when the transaction is closed, when it is
read-only, when the key is empty, when the key exceeds MaxKeySize and when the
value exceeds MaxValueSize, each refusal leaving the tree untouched; otherwise
insert through node.put with oldKey = newKey = key. -/
def bucketPut (txOpen writable : Bool) (leaf : Node) (key value : List Nat) :
    Node × Option PutErr :=
  if !txOpen then (leaf, some .txClosed)
  else if !writable then (leaf, some .bucketNotWritable)
  else if key.length = 0 then (leaf, some .keyRequired)
  else if MaxKeySize < key.length then (leaf, some .keyTooLarge)
  else if MaxValueSize < value.length then (leaf, some .valueTooLarge)
  else (Node.put leaf key key value 0 0, none)

/-- C6: in an open transaction, Bucket.Put errs exactly when the transaction is
read-only, the key is empty, the key exceeds MaxKeySize or the value exceeds
MaxValueSize; each case returns its named error, and any error leaves the tree
unchanged. -/
theorem bucketPut_validation (txOpen writable : Bool) (leaf : Node)
    (key value : List Nat) (ht : txOpen = true) :
    ((bucketPut txOpen writable leaf key value).2 ≠ none ↔
        (writable = false ∨ key = [] ∨ MaxKeySize < key.length ∨
          MaxValueSize < value.length)) ∧
    (writable = false →
      bucketPut txOpen writable leaf key value = (leaf, some .bucketNotWritable)) ∧
    (writable = true → key = [] →
      bucketPut txOpen writable leaf key value = (leaf, some .keyRequired)) ∧
    (writable = true → key ≠ [] → MaxKeySize < key.length →
      bucketPut txOpen writable leaf key value = (leaf, some .keyTooLarge)) ∧
    (writable = true → key ≠ [] → key.length ≤ MaxKeySize →
        MaxValueSize < value.length →
      bucketPut txOpen writable leaf key value = (leaf, some .valueTooLarge)) ∧
    (∀ e, (bucketPut txOpen writable leaf key value).2 = some e →
      (bucketPut txOpen writable leaf key value).1 = leaf) := by
  subst ht
  cases writable with
  | false =>
    refine ⟨by simp [bucketPut], fun _ => by simp [bucketPut], ?_, ?_, ?_, ?_⟩
    · intro h; cases h
    · intro h; cases h
    · intro h; cases h
    · intro e _; simp [bucketPut]
  | true =>
    by_cases hk0 : key = []
    · subst hk0
      refine ⟨by simp [bucketPut], by simp, fun _ _ => by simp [bucketPut], ?_, ?_, ?_⟩
      · intro _ h; exact absurd rfl h
      · intro _ h; exact absurd rfl h
      · intro e _; simp [bucketPut]
    · have hk0' : key.length ≠ 0 := by
        intro h; exact hk0 (List.eq_nil_of_length_eq_zero h)
      by_cases hk : MaxKeySize < key.length
      · refine ⟨by simp [bucketPut, hk0', hk], by simp, fun _ h => absurd h hk0,
          fun _ _ _ => by simp [bucketPut, hk0', hk], ?_, ?_⟩
        · intro _ _ hle; omega
        · intro e _; simp [bucketPut, hk0', hk]
      · by_cases hv : MaxValueSize < value.length
        · refine ⟨by simp [bucketPut, hk0', hk, hv], by simp,
            fun _ h => absurd h hk0, fun _ _ h => absurd h hk,
            fun _ _ _ _ => by simp [bucketPut, hk0', hk, hv], ?_⟩
          intro e _; simp [bucketPut, hk0', hk, hv]
        · refine ⟨by simp [bucketPut, hk0', hk, hv, hk0], by simp,
            fun _ h => absurd h hk0, fun _ _ h => absurd h hk,
            fun _ _ _ h => absurd h hv, ?_⟩
          intro e he
          simp [bucketPut, hk0', hk, hv] at he

/-- C6 witness: the empty-key refusal at a concrete input. -/
theorem bucketPut_validation_witness :
    bucketPut true true ⟨true, [⟨0, 0, [97], [98]⟩]⟩ [] [5]
      = (⟨true, [⟨0, 0, [97], [98]⟩]⟩, some .keyRequired) :=
  (bucketPut_validation true true ⟨true, [⟨0, 0, [97], [98]⟩]⟩ [] [5]
      rfl).2.2.1 rfl rfl

/-- The errors Bucket.NextSequence can return, in the order bucket.go checks
them. -/
inductive SeqErr where
  | txClosed
  | bucketNotWritable
  | sequenceOverflow
  deriving DecidableEq, Repr

/-- Modelled from the spec: maxInt, the NextSequence overflow guard, is declared
outside the available source; the spec places the overflow at the u64 maximum. -/
def maxInt : Nat := 2 ^ 64 - 1

/-- Bucket.NextSequence from bucket.go: refuse when the transaction is closed or
read-only (returning 0), refuse without touching the sequence when it already
equals maxInt, otherwise increment the persisted sequence and return the new
value. The triple is (new stored sequence, returned number, error). -/
def nextSequence (txOpen writable : Bool) (seq : Nat) : Nat × Nat × Option SeqErr :=
  if !txOpen then (seq, 0, some .txClosed)
  else if !writable then (seq, 0, some .bucketNotWritable)
  else if seq = maxInt then (seq, 0, some .sequenceOverflow)
  else (seq + 1, seq + 1, none)

/-- C7: on a writable bucket in an open transaction, NextSequence returns the
overflow error and leaves the stored sequence unchanged exactly when the
sequence is 2^64 − 1, and otherwise increments the stored sequence by one and
returns the new value. -/
theorem nextSequence_spec (txOpen writable : Bool) (seq : Nat)
    (ht : txOpen = true) (hw : writable = true) (_hseq : seq < 2 ^ 64) :
    (seq = 2 ^ 64 - 1 →
      nextSequence txOpen writable seq = (seq, 0, some .sequenceOverflow)) ∧
    (seq ≠ 2 ^ 64 - 1 →
      nextSequence txOpen writable seq = (seq + 1, seq + 1, none)) := by
  subst ht
  subst hw
  constructor
  · intro h
    simp [nextSequence, maxInt, h]
  · intro h
    have : seq ≠ maxInt := by rw [maxInt]; exact h
    simp [nextSequence, this]

/-- C7 witness: NextSequence at the stored sequence 41 and at the maximum. -/
theorem nextSequence_spec_witness :
    nextSequence true true 41 = (42, 42, none) ∧
    nextSequence true true (2 ^ 64 - 1) = (2 ^ 64 - 1, 0, some .sequenceOverflow) :=
  ⟨(nextSequence_spec true true 41 rfl rfl (by norm_num)).2 (by norm_num),
   (nextSequence_spec true true (2 ^ 64 - 1) rfl rfl (by norm_num)).1 rfl⟩

/-- A meta page for meta selection: its transaction id, plus — modelled from the
spec — an abstract flag for whether the page "checksums correctly"; the meta
layout in this source has no checksum field, so the flag only carries the
spec's notion for comparison. -/
structure Meta where
  txid : Nat
  checksumOk : Bool
  deriving DecidableEq, Repr

/-- DB.meta from db.go: return meta0 when its txid is the greater, else meta1. -/
def dbMeta (m0 m1 : Meta) : Meta :=
  if m1.txid < m0.txid then m0 else m1

/-- C8 counterexample: with meta0 at txid 5 failing its checksum and meta1 at
txid 3 checksumming correctly, DB.meta still selects meta0: the selection reads
only the txids and never validates a checksum. -/
theorem dbMeta_checksum_counterexample :
    dbMeta ⟨5, false⟩ ⟨3, true⟩ = ⟨5, false⟩ ∧
    (dbMeta ⟨5, false⟩ ⟨3, true⟩).checksumOk = false ∧
    (⟨3, true⟩ : Meta).checksumOk = true := by
  refine ⟨by decide, by decide, by decide⟩

/-- C8 amended: the meta selected as current is simply the one with the greater
txid (meta1 on ties), with no checksum validation: the selected meta is one of
the two and carries the maximum txid. -/
theorem dbMeta_selects_greater_txid (m0 m1 : Meta) :
    (dbMeta m0 m1).txid = max m0.txid m1.txid ∧
    (dbMeta m0 m1 = m0 ∨ dbMeta m0 m1 = m1) ∧
    (m0.txid ≤ m1.txid → dbMeta m0 m1 = m1) := by
  unfold dbMeta
  by_cases h : m1.txid < m0.txid
  · rw [if_pos h]
    exact ⟨by omega, Or.inl rfl, fun hle => absurd hle (by omega)⟩
  · rw [if_neg h]
    exact ⟨by omega, Or.inr rfl, fun _ => rfl⟩

/-- A B+tree as reachable from a page id through transaction.page: a leaf page
of key/value pairs or a branch page of separator-key/child pairs. -/
inductive PTree where
  | leaf : List (List Nat × List Nat) → PTree
  | branch : List (List Nat × PTree) → PTree
  deriving Repr

/-- The sort.Search lower bound used by Cursor.search and Cursor.nsearch: the
first position whose key compares not-less-than the target (the element count
when none does); sort.Search binary-searches, which agrees with this on the
sorted pages a tree maintains. -/
def lowerBoundIdx {β : Type} (es : List (List Nat × β)) (k : List Nat) : Nat :=
  es.findIdx fun e => bytesCompare e.1 k != Ordering.lt

/-- The exact flag of Cursor.search: whether the element at the lower bound
carries exactly the target key, which is what sort.Search's closure observes on
a sorted duplicate-free page. -/
def branchExact {β : Type} (es : List (List Nat × β)) (k : List Nat) : Bool :=
  (es[lowerBoundIdx es k]?.map fun e => e.1 == k).getD false

/-- The child index Cursor.search descends into: the lower bound, decremented
by one when the exact key was not found and the index is positive. -/
def branchChildIdx {β : Type} (es : List (List Nat × β)) (k : List Nat) : Nat :=
  if !branchExact es k && decide (0 < lowerBoundIdx es k) then lowerBoundIdx es k - 1
  else lowerBoundIdx es k

set_option linter.unusedVariables false in
/-- Cursor.Seek from cursor.go: Cursor.search descends from the root through
the branchChildIdx child of every branch page; on a leaf page Cursor.nsearch
records the lower bound, and Seek returns nil exactly when that index equals
the page count, otherwise the element at the index. -/
def seekGo : PTree → List Nat → Option (List Nat × List Nat)
  | .leaf es, k => es[lowerBoundIdx es k]?
  | .branch es, k =>
    match h : es[branchChildIdx es k]? with
    | some e => seekGo e.2 k
    | none => none
termination_by t _ => sizeOf t
decreasing_by
  have hmem : e ∈ es := by
    rcases List.getElem?_eq_some_iff.mp h with ⟨hlt, hget⟩
    rw [← hget]
    exact List.getElem_mem hlt
  have hsz : sizeOf e < sizeOf es := List.sizeOf_lt_of_mem hmem
  cases e with
  | mk a b =>
    simp only [PTree.branch.sizeOf_spec, Prod.mk.sizeOf_spec] at hsz ⊢
    omega

/-- The branch child the spec words choose: the rightmost element whose key is
at most the target — position (number of keys ≤ target) − 1 — or the first
element when no key is at most the target. -/
def rightmostLEIdx {β : Type} (es : List (List Nat × β)) (k : List Nat) : Nat :=
  if (es.countP fun e => bytesCompare e.1 k != Ordering.gt) = 0 then 0
  else (es.countP fun e => bytesCompare e.1 k != Ordering.gt) - 1

set_option linter.unusedVariables false in
/-- The descent exactly as the spec words it: at each branch the rightmost
element whose key is at most the target, on the leaf the lower bound — the
number of keys below the target — returning nothing exactly when that index
equals the leaf's element count. -/
def seekSpec : PTree → List Nat → Option (List Nat × List Nat)
  | .leaf es, k =>
    if (es.countP fun e => bytesCompare e.1 k == Ordering.lt) = es.length then none
    else es[es.countP fun e => bytesCompare e.1 k == Ordering.lt]?
  | .branch es, k =>
    match h : es[rightmostLEIdx es k]? with
    | some e => seekSpec e.2 k
    | none => none
termination_by t _ => sizeOf t
decreasing_by
  have hmem : e ∈ es := by
    rcases List.getElem?_eq_some_iff.mp h with ⟨hlt, hget⟩
    rw [← hget]
    exact List.getElem_mem hlt
  have hsz : sizeOf e < sizeOf es := List.sizeOf_lt_of_mem hmem
  cases e with
  | mk a b =>
    simp only [PTree.branch.sizeOf_spec, Prod.mk.sizeOf_spec] at hsz ⊢
    omega

/-- Well-formedness of a B+tree page for the seek claims: every page's keys are
strictly ascending (sorted, duplicate-free) and branch pages are nonempty. -/
inductive PTreeWF : PTree → Prop
  | leaf (es : List (List Nat × List Nat)) :
      (es.map Prod.fst).Pairwise (fun a b => bytesCompare a b = Ordering.lt) →
      PTreeWF (.leaf es)
  | branch (es : List (List Nat × PTree)) :
      es ≠ [] →
      (es.map Prod.fst).Pairwise (fun a b => bytesCompare a b = Ordering.lt) →
      (∀ e ∈ es, PTreeWF e.2) →
      PTreeWF (.branch es)

/-- Strictly ascending keys make the sort.Search lower bound equal the number of
keys below the target. -/
theorem pair_findIdx_eq_countP {β : Type} (k : List Nat) :
    ∀ (es : List (List Nat × β)),
      (es.map Prod.fst).Pairwise (fun a b => bytesCompare a b = Ordering.lt) →
      es.findIdx (fun e => bytesCompare e.1 k != Ordering.lt)
        = es.countP (fun e => bytesCompare e.1 k == Ordering.lt) := by
  intro es
  induction es with
  | nil => intro _; rfl
  | cons a es ih =>
    intro hs
    rw [List.map_cons] at hs
    have hs' := List.pairwise_cons.mp hs
    cases hcmp : bytesCompare a.1 k with
    | lt =>
      simp only [List.findIdx_cons, List.countP_cons, hcmp]
      simp [ih hs'.2]
    | eq =>
      have htail : es.countP (fun e => bytesCompare e.1 k == Ordering.lt) = 0 := by
        rw [List.countP_eq_zero]
        intro e he
        have hab : bytesCompare a.1 e.1 = Ordering.lt :=
          hs'.1 e.1 (List.mem_map.mpr ⟨e, he, rfl⟩)
        have hak : a.1 = k := bytesCompare_eq_iff.mp hcmp
        rw [hak] at hab
        have hgt : bytesCompare e.1 k = Ordering.gt := bytesCompare_gt_iff_lt.mpr hab
        simp [hgt]
      simp only [List.findIdx_cons, List.countP_cons, hcmp]
      simp [htail]
    | gt =>
      have hka : bytesCompare k a.1 = Ordering.lt := bytesCompare_gt_iff_lt.mp hcmp
      have htail : es.countP (fun e => bytesCompare e.1 k == Ordering.lt) = 0 := by
        rw [List.countP_eq_zero]
        intro e he
        have hab : bytesCompare a.1 e.1 = Ordering.lt :=
          hs'.1 e.1 (List.mem_map.mpr ⟨e, he, rfl⟩)
        have hke : bytesCompare k e.1 = Ordering.lt := bytesCompare_lt_trans hka hab
        have hgt : bytesCompare e.1 k = Ordering.gt := bytesCompare_gt_iff_lt.mpr hke
        simp [hgt]
      simp only [List.findIdx_cons, List.countP_cons, hcmp]
      simp [htail]

/-- Keys that are at most the target are exactly those below it or equal to it. -/
theorem pair_countP_split {β : Type} (k : List Nat) (es : List (List Nat × β)) :
    es.countP (fun e => bytesCompare e.1 k != Ordering.gt)
      = es.countP (fun e => bytesCompare e.1 k == Ordering.lt)
        + es.countP (fun e => bytesCompare e.1 k == Ordering.eq) := by
  induction es with
  | nil => rfl
  | cons a es ih =>
    cases hcmp : bytesCompare a.1 k with
    | lt =>
      simp only [List.countP_cons, hcmp, ih]
      simp
      omega
    | eq =>
      simp only [List.countP_cons, hcmp, ih]
      simp
      omega
    | gt =>
      simp only [List.countP_cons, hcmp, ih]
      simp

/-- No key equals an absent target. -/
theorem pair_countP_eq_zero_of_absent {β : Type} (k : List Nat)
    (es : List (List Nat × β)) (habs : ∀ e ∈ es, e.1 ≠ k) :
    es.countP (fun e => bytesCompare e.1 k == Ordering.eq) = 0 := by
  rw [List.countP_eq_zero]
  intro e he
  have hne := habs e he
  cases hcmp : bytesCompare e.1 k with
  | eq => exact absurd (bytesCompare_eq_iff.mp hcmp) hne
  | lt => simp
  | gt => simp

/-- On strictly ascending keys a present target matches exactly one key. -/
theorem pair_countP_eq_one_of_mem {β : Type} (k : List Nat) :
    ∀ (es : List (List Nat × β)),
      (es.map Prod.fst).Pairwise (fun a b => bytesCompare a b = Ordering.lt) →
      (∃ e ∈ es, e.1 = k) →
      es.countP (fun e => bytesCompare e.1 k == Ordering.eq) = 1 := by
  intro es
  induction es with
  | nil => intro _ h; rcases h with ⟨e, he, _⟩; cases he
  | cons a es ih =>
    intro hs hpres
    rw [List.map_cons] at hs
    have hs' := List.pairwise_cons.mp hs
    by_cases hak : a.1 = k
    · have htail : es.countP (fun e => bytesCompare e.1 k == Ordering.eq) = 0 := by
        apply pair_countP_eq_zero_of_absent
        intro e he
        have hab : bytesCompare a.1 e.1 = Ordering.lt :=
          hs'.1 e.1 (List.mem_map.mpr ⟨e, he, rfl⟩)
        rw [hak] at hab
        intro hek
        rw [hek] at hab
        rw [bytesCompare_self] at hab
        cases hab
      have hcmp : bytesCompare a.1 k = Ordering.eq := bytesCompare_eq_iff.mpr hak
      simp only [List.countP_cons, hcmp, htail]
      simp
    · have hpres' : ∃ e ∈ es, e.1 = k := by
        rcases hpres with ⟨e, he, hek⟩
        rcases List.mem_cons.mp he with rfl | hees
        · exact absurd hek hak
        · exact ⟨e, hees, hek⟩
      have hcmp : bytesCompare a.1 k ≠ Ordering.eq := by
        intro h; exact hak (bytesCompare_eq_iff.mp h)
      have hbeq : (bytesCompare a.1 k == Ordering.eq) = false := by
        cases h : bytesCompare a.1 k with
        | eq => exact absurd h hcmp
        | lt => rfl
        | gt => rfl
      simp only [List.countP_cons, ih hs'.2 hpres']
      simp [hbeq]

/-- On strictly ascending keys, the lower bound of a present target is its
position. -/
theorem pair_findIdx_of_mem {β : Type} (es : List (List Nat × β)) (k : List Nat)
    (hs : (es.map Prod.fst).Pairwise (fun a b => bytesCompare a b = Ordering.lt))
    (i : Nat) (hi : i < es.length) (hk : (es.get ⟨i, hi⟩).1 = k) :
    es.findIdx (fun e => bytesCompare e.1 k != Ordering.lt) = i := by
  apply findIdx_eq_of_first _ _ i hi
  · simp only [List.get_eq_getElem] at hk
    simp only [List.get_eq_getElem, hk, bytesCompare_self]
    rfl
  · intro j hj hji
    have hrel := List.pairwise_iff_getElem.mp hs j i (by simpa using hj)
      (by simpa using hi) hji
    simp only [List.getElem_map] at hrel
    simp only [List.get_eq_getElem] at hk
    rw [hk] at hrel
    simp only [List.get_eq_getElem, hrel]
    rfl

/-- On a sorted duplicate-free branch page, the source's child choice — the
sort.Search lower bound, minus one when the exact key was not found and the
index is positive — equals the spec's choice: the rightmost element whose key
is at most the target, or the first element when no key is. -/
theorem branch_index_eq {β : Type} (es : List (List Nat × β)) (k : List Nat)
    (hs : (es.map Prod.fst).Pairwise (fun a b => bytesCompare a b = Ordering.lt)) :
    branchChildIdx es k = rightmostLEIdx es k := by
  have hlb : lowerBoundIdx es k
      = es.countP (fun e => bytesCompare e.1 k == Ordering.lt) :=
    pair_findIdx_eq_countP k es hs
  have hsplit := pair_countP_split k es
  by_cases hpres : ∃ e ∈ es, e.1 = k
  · obtain ⟨e0, he0, hk0⟩ := hpres
    obtain ⟨i, hi, hei⟩ := List.mem_iff_getElem.mp he0
    have hgi : (es.get ⟨i, hi⟩).1 = k := by
      rw [List.get_eq_getElem, hei]; exact hk0
    have hfidx : lowerBoundIdx es k = i :=
      pair_findIdx_of_mem es k hs i hi hgi
    have hone := pair_countP_eq_one_of_mem k es hs ⟨e0, he0, hk0⟩
    have hc : (es.countP fun e => bytesCompare e.1 k != Ordering.gt) = i + 1 := by
      rw [hsplit, ← hlb, hfidx, hone]
    have hex : branchExact es k = true := by
      unfold branchExact
      rw [hfidx, List.getElem?_eq_getElem hi]
      simp only [List.get_eq_getElem] at hgi
      simp [hgi]
    unfold branchChildIdx rightmostLEIdx
    rw [hex, hc, hfidx]
    simp
  · have habs : ∀ e ∈ es, e.1 ≠ k := by
      intro e he hek
      exact hpres ⟨e, he, hek⟩
    have h0 := pair_countP_eq_zero_of_absent k es habs
    have hc : (es.countP fun e => bytesCompare e.1 k != Ordering.gt)
        = lowerBoundIdx es k := by
      rw [hsplit, h0, ← hlb]
      omega
    have hex : branchExact es k = false := by
      unfold branchExact
      cases hget : es[lowerBoundIdx es k]? with
      | none => rfl
      | some e =>
        rcases List.getElem?_eq_some_iff.mp hget with ⟨hlt, hgete⟩
        have hmem : e ∈ es := by rw [← hgete]; exact List.getElem_mem hlt
        have hne := habs e hmem
        simp [hne]
    unfold branchChildIdx rightmostLEIdx
    rw [hex, hc]
    by_cases hz : lowerBoundIdx es k = 0
    · rw [hz]
      simp
    · rw [if_neg hz]
      have hzpos : 0 < lowerBoundIdx es k := Nat.pos_of_ne_zero hz
      simp [hzpos]

/-- C9: on every well-formed B+tree (sorted duplicate-free keys on each page,
nonempty branch pages) Cursor.Seek computes the spec's descent: at each branch
the rightmost element whose key is at most the target (first child when none
is), the lower bound on the leaf, nil exactly when that index equals the leaf's
element count and otherwise the key/value at the index. -/
theorem seekGo_eq_seekSpec (t : PTree) (k : List Nat) (hwf : PTreeWF t) :
    seekGo t k = seekSpec t k := by
  induction hwf with
  | leaf es hs =>
    simp only [seekGo, seekSpec]
    have hlb : lowerBoundIdx es k
        = es.countP (fun e => bytesCompare e.1 k == Ordering.lt) :=
      pair_findIdx_eq_countP k es hs
    rw [← hlb]
    by_cases hc : lowerBoundIdx es k = es.length
    · rw [if_pos hc, hc]
      exact List.getElem?_eq_none (Nat.le_refl _)
    · rw [if_neg hc]
  | branch es hne hs hwfc ih =>
    simp only [seekGo, seekSpec]
    have hgetEq : es[branchChildIdx es k]? = es[rightmostLEIdx es k]? := by
      rw [branch_index_eq es k hs]
    split
    next e h1 =>
      rw [hgetEq] at h1
      split
      next e2 h2 =>
        rw [h1] at h2
        injection h2 with h3
        rcases List.getElem?_eq_some_iff.mp h1 with ⟨hlt, hgete⟩
        have hmem : e ∈ es := by rw [← hgete]; exact List.getElem_mem hlt
        rw [← h3]
        exact ih e hmem
      next h2 =>
        rw [h1] at h2
        cases h2
    next h1 =>
      rw [hgetEq] at h1
      split
      next e2 h2 =>
        rw [h1] at h2
        cases h2
      next h2 => rfl

/-- A two-level tree: a branch over two leaves with keys 2, 4 and 6. -/
def demoTree : PTree :=
  .branch [([2], .leaf [([2], [10]), ([4], [11])]), ([6], .leaf [([6], [12])])]

theorem demoTree_wf : PTreeWF demoTree := by
  refine PTreeWF.branch _ (by simp) (by decide) ?_
  intro e he
  rcases List.mem_cons.mp he with rfl | he2
  · exact PTreeWF.leaf _ (by decide)
  · rcases List.mem_cons.mp he2 with rfl | he3
    · exact PTreeWF.leaf _ (by decide)
    · cases he3

/-- C9 witness: the descent equivalence at a concrete well-formed two-level
tree and target key. -/
theorem seekGo_eq_seekSpec_witness :
    PTreeWF demoTree ∧ seekGo demoTree [4] = seekSpec demoTree [4] :=
  ⟨demoTree_wf, seekGo_eq_seekSpec demoTree [4] demoTree_wf⟩

end Bolt
